import Mathlib

/-!
Verification of the consumable-event buffer (`bevy_consumable_event`).

The Rust sources keep events in a `Vec<EventInstance<E>>` where each
`EventInstance` pairs a payload with a `consumed: bool` flag
(`src/lib.rs`).  We embed that buffer as a `List` of records and each
public operation as a Lean function translated from the corresponding
Rust method.  The lazy iterator (`ConsumableEventIterator::next`, which
is `self.iter.find(|e| !e.consumed)` over a `slice::IterMut`) is embedded
as a scan `nextIdx` from the iterator's current position, and a full
read pass (a `for` loop over the iterator whose body may mutate the
payload through the guard and may call `consume`) is embedded as the
fuelled state machine `runPassFuel`, which repeatedly calls `nextIdx`,
applies the loop body to the found record, writes the mutated payload
and consume decision back, and continues after the found index.
-/

namespace BevyConsumableEvent

/-- `EventInstance<E>` from src/lib.rs: one event payload plus its
`consumed` flag. -/
structure EventInstance (E : Type) where
  event : E
  consumed : Bool
deriving DecidableEq

/-- `ConsumableEvents<E>` is a wrapper around `events: Vec<EventInstance<E>>`;
we embed the vector directly. -/
abbrev ConsumableEvents (E : Type) := List (EventInstance E)

/-- `ConsumableEvents::send`: pushes `EventInstance { event, consumed: false }`. -/
def send {E : Type} (l : ConsumableEvents E) (e : E) : ConsumableEvents E :=
  l ++ [{ event := e, consumed := false }]

/-- `Extend::extend` for `ConsumableEvents`: appends
`iter.map(|event| EventInstance { event, consumed: false })`. -/
def extendEvents {E : Type} (l : ConsumableEvents E) (es : List E) :
    ConsumableEvents E :=
  l ++ es.map (fun e => { event := e, consumed := false })

/-- `ConsumableEvents::send_batch`: delegates to `extend`. -/
def send_batch {E : Type} (l : ConsumableEvents E) (es : List E) :
    ConsumableEvents E :=
  extendEvents l es

/-- `ConsumableEvents::send_default`: sends `Default::default()`. -/
def send_default {E : Type} [Inhabited E] (l : ConsumableEvents E) :
    ConsumableEvents E :=
  send l default

/-- `ConsumableEvents::clear`: `self.events.clear()`. -/
def clear {E : Type} (_l : ConsumableEvents E) : ConsumableEvents E :=
  []

/-- `ConsumableEvents::clear_consumed`:
`self.events.retain(|event| !event.consumed)`. -/
def clear_consumed {E : Type} (l : ConsumableEvents E) : ConsumableEvents E :=
  l.filter (fun r => !r.consumed)

/-- `Consume::consume` applied to the guard bound to the record at
index `i`: `*self.consumed = true`, leaving the payload untouched.
Out-of-range indices leave the buffer unchanged (a guard is only ever
bound to an existing record). -/
def consumeAt {E : Type} (l : ConsumableEvents E) (i : Nat) :
    ConsumableEvents E :=
  match l.get? i with
  | none => l
  | some r => l.set i { event := r.event, consumed := true }

/-- `ConsumableEventIterator::next`, i.e.
`self.iter.find(|event_instance| !event_instance.consumed)` over the
underlying `slice::IterMut` positioned at `pos`: the absolute index of
the first record at or after `pos` whose `consumed` flag is false, or
`none` when every record from `pos` on is consumed. -/
def nextIdx {E : Type} : List (EventInstance E) → Nat → Option Nat
  | [], _ => none
  | r :: rest, 0 =>
    if r.consumed then (nextIdx rest 0).map (· + 1) else some 0
  | _ :: rest, pos + 1 => (nextIdx rest pos).map (· + 1)

/-- `ConsumableEventIterator::size_hint`:
`(0, self.iter.size_hint().1)`, where the slice iterator's upper bound
is the number of records not yet passed. -/
def size_hint {E : Type} (events : ConsumableEvents E) (pos : Nat) :
    Nat × Option Nat :=
  (0, some (events.length - pos))

/-- A full read pass: a `for` loop over `ConsumableEventIterator`.  The
loop body is abstracted as `f : E → E × Bool`, mapping the payload seen
through the guard to the (possibly mutated, via `DerefMut`) payload and
the final value of the record's `consumed` flag (`true` iff the body
called `Consume::consume`; a yielded record starts unconsumed, and the
guard's only flag write is `consume`, which sets it to `true`).  Each
step calls `next` (`nextIdx`), runs the body on the found record,
writes the result back, and resumes after the found index.  `fuel`
bounds the number of steps; the trace records, per yielded guard, the
record's index and the payload at the moment it was yielded. -/
def runPassFuel {E : Type} (f : E → E × Bool) :
    ConsumableEvents E → Nat → Nat → ConsumableEvents E × List (Nat × E)
  | events, _, 0 => (events, [])
  | events, pos, fuel + 1 =>
    match nextIdx events pos with
    | none => (events, [])
    | some i =>
      match events.get? i with
      | none => (events, [])
      | some r =>
        let res := runPassFuel f
          (events.set i { event := (f r.event).1, consumed := (f r.event).2 })
          (i + 1) fuel
        (res.1, (i, r.event) :: res.2)

/-- Running the iterator to exhaustion from position `pos`
(`events.length - pos` steps always suffice, since each yield moves the
position strictly forward). -/
def runFrom {E : Type} (f : E → E × Bool) (events : ConsumableEvents E)
    (pos : Nat) : ConsumableEvents E × List (Nat × E) :=
  runPassFuel f events pos (events.length - pos)

/-- A complete pass of `ConsumableEvents::read`: run the iterator from
the start of the buffer to exhaustion. -/
def readPass {E : Type} (f : E → E × Bool) (events : ConsumableEvents E) :
    ConsumableEvents E × List (Nat × E) :=
  runFrom f events 0

/-- The payload values observed by a read pass that neither mutates nor
consumes (e.g. `events.read().map(|event| event.value)`). -/
def readValues {E : Type} (l : ConsumableEvents E) : List E :=
  ((readPass (fun e => (e, false)) l).2).map Prod.snd

/-- Structural companion of `runPassFuel`: processes the suffix of the
buffer record by record, with `i` the absolute index of the head.
Faithful to the iterator loop because a guard can only write to its own
record, so a later record's flag when reached equals its flag at pass
start; `runPass_bridge` proves the equivalence. -/
def passAuxIdx {E : Type} (f : E → E × Bool) :
    List (EventInstance E) → Nat → List (EventInstance E) × List (Nat × E)
  | [], _ => ([], [])
  | r :: rest, i =>
    if r.consumed then
      let res := passAuxIdx f rest (i + 1)
      (r :: res.1, res.2)
    else
      let res := passAuxIdx f rest (i + 1)
      ({ event := (f r.event).1, consumed := (f r.event).2 } :: res.1,
        (i, r.event) :: res.2)

/-- Number of records whose `consumed` flag is set. -/
def consumedCount {E : Type} (l : ConsumableEvents E) : Nat :=
  (l.filter (fun r => r.consumed)).length

/-- Number of records whose `consumed` flag is not set. -/
def unconsumedCount {E : Type} (l : ConsumableEvents E) : Nat :=
  (l.filter (fun r => !r.consumed)).length

/-- One append action: either a single `send` or a `send_batch`. -/
inductive SendOp (E : Type) where
  | one (e : E)
  | batch (es : List E)

/-- Apply a sequence of append actions to a buffer. -/
def applySends {E : Type} :
    List (SendOp E) → ConsumableEvents E → ConsumableEvents E
  | [], l => l
  | SendOp.one e :: ops, l => applySends ops (send l e)
  | SendOp.batch es :: ops, l => applySends ops (send_batch l es)

/-- The payloads appended by a sequence of append actions, in order. -/
def sentPayloads {E : Type} : List (SendOp E) → List E
  | [] => []
  | SendOp.one e :: ops => e :: sentPayloads ops
  | SendOp.batch es :: ops => es ++ sentPayloads ops

/-- The loop body of the test `consume_odds_and_halve_evens`
(src/app.rs): consume a record with an odd value, otherwise halve its
value in place. -/
def lifecycleBody (v : Nat) : Nat × Bool :=
  if v % 2 == 1 then (v, true) else (v / 2, false)

/-- The test producer `write_events` (src/app.rs): sends payloads
`0..10` one by one. -/
def write_events (l : ConsumableEvents Nat) : ConsumableEvents Nat :=
  (List.range 10).foldl send l

/-- One cycle of the persistent-mode test `add_persistent_consumable_event`
(src/app.rs): the `First`-schedule hook `clear_consumed_events` runs
`clear_consumed`, then `write_events` sends `0..10`, then
`consume_odds_and_halve_evens` performs one read pass. -/
def persistentCycle (l : ConsumableEvents Nat) : ConsumableEvents Nat :=
  (readPass lifecycleBody (write_events (clear_consumed l))).1

theorem nextIdx_ge {E : Type} :
    ∀ (events : List (EventInstance E)) (pos i : Nat),
      nextIdx events pos = some i → pos ≤ i := by
  intro events
  induction events with
  | nil => intro pos i h; simp [nextIdx] at h
  | cons r rest ih =>
    intro pos i h
    cases pos with
    | zero => exact Nat.zero_le _
    | succ p =>
      simp only [nextIdx, Option.map_eq_some'] at h
      obtain ⟨j, hj, rfl⟩ := h
      exact Nat.succ_le_succ (ih p j hj)

theorem nextIdx_lt_length {E : Type} :
    ∀ (events : List (EventInstance E)) (pos i : Nat),
      nextIdx events pos = some i → i < events.length := by
  intro events
  induction events with
  | nil => intro pos i h; simp [nextIdx] at h
  | cons r rest ih =>
    intro pos i h
    cases pos with
    | zero =>
      by_cases hc : r.consumed
      · simp only [nextIdx, hc, if_true, Option.map_eq_some'] at h
        obtain ⟨j, hj, rfl⟩ := h
        exact Nat.succ_lt_succ (ih 0 j hj)
      · simp only [nextIdx, hc, if_neg, Bool.false_eq_true, if_false,
          Option.some.injEq] at h
        subst h
        exact Nat.succ_pos _
    | succ p =>
      simp only [nextIdx, Option.map_eq_some'] at h
      obtain ⟨j, hj, rfl⟩ := h
      exact Nat.succ_lt_succ (ih p j hj)

theorem nextIdx_unconsumed {E : Type} :
    ∀ (events : List (EventInstance E)) (pos i : Nat)
      (_hsome : nextIdx events pos = some i) (hi : i < events.length),
      (events.get ⟨i, hi⟩).consumed = false := by
  intro events
  induction events with
  | nil => intro pos i h hi; simp [nextIdx] at h
  | cons r rest ih =>
    intro pos i h hi
    cases pos with
    | zero =>
      by_cases hc : r.consumed
      · simp only [nextIdx, hc, if_true, Option.map_eq_some'] at h
        obtain ⟨j, hj, rfl⟩ := h
        exact ih 0 j hj (Nat.lt_of_succ_lt_succ hi)
      · simp only [nextIdx, hc, if_neg, Bool.false_eq_true, if_false,
          Option.some.injEq] at h
        subst h
        simpa using hc
    | succ p =>
      simp only [nextIdx, Option.map_eq_some'] at h
      obtain ⟨j, hj, rfl⟩ := h
      exact ih p j hj (Nat.lt_of_succ_lt_succ hi)

theorem nextIdx_skipped_consumed {E : Type} :
    ∀ (events : List (EventInstance E)) (pos i : Nat),
      nextIdx events pos = some i →
      ∀ j (hj : j < events.length), pos ≤ j → j < i →
        (events.get ⟨j, hj⟩).consumed = true := by
  intro events
  induction events with
  | nil => intro pos i h; simp [nextIdx] at h
  | cons r rest ih =>
    intro pos i h j hj hpj hji
    cases pos with
    | zero =>
      by_cases hc : r.consumed
      · simp only [nextIdx, hc, if_true, Option.map_eq_some'] at h
        obtain ⟨k, hk, rfl⟩ := h
        cases j with
        | zero => simpa using hc
        | succ j' =>
          exact ih 0 k hk j' (Nat.lt_of_succ_lt_succ hj) (Nat.zero_le _)
            (Nat.lt_of_succ_lt_succ hji)
      · simp only [nextIdx, hc, if_neg, Bool.false_eq_true, if_false,
          Option.some.injEq] at h
        subst h
        exact absurd hji (Nat.not_lt_zero j).elim
    | succ p =>
      simp only [nextIdx, Option.map_eq_some'] at h
      obtain ⟨k, hk, rfl⟩ := h
      cases j with
      | zero => exact absurd hpj (Nat.not_succ_le_zero p)
      | succ j' =>
        exact ih p k hk j' (Nat.lt_of_succ_lt_succ hj)
          (Nat.le_of_succ_le_succ hpj) (Nat.lt_of_succ_lt_succ hji)

theorem nextIdx_none_all_consumed {E : Type} :
    ∀ (events : List (EventInstance E)) (pos : Nat),
      nextIdx events pos = none →
      ∀ j (hj : j < events.length), pos ≤ j →
        (events.get ⟨j, hj⟩).consumed = true := by
  intro events
  induction events with
  | nil => intro pos h j hj; simp at hj
  | cons r rest ih =>
    intro pos h j hj hpj
    cases pos with
    | zero =>
      by_cases hc : r.consumed
      · simp only [nextIdx, hc, if_true, Option.map_eq_none'] at h
        cases j with
        | zero => simpa using hc
        | succ j' => exact ih 0 h j' (Nat.lt_of_succ_lt_succ hj) (Nat.zero_le _)
      · simp [nextIdx, hc] at h
    | succ p =>
      simp only [nextIdx, Option.map_eq_none'] at h
      cases j with
      | zero => exact absurd hpj (Nat.not_succ_le_zero p)
      | succ j' =>
        exact ih p h j' (Nat.lt_of_succ_lt_succ hj) (Nat.le_of_succ_le_succ hpj)

theorem nextIdx_none_of_ge {E : Type} :
    ∀ (l : List (EventInstance E)) (pos : Nat), l.length ≤ pos →
      nextIdx l pos = none := by
  intro l
  induction l with
  | nil => intro pos _; rfl
  | cons r rest ih =>
    intro pos hp
    cases pos with
    | zero => simp at hp
    | succ p =>
      simp only [nextIdx, Option.map_eq_none']
      exact ih p (Nat.le_of_succ_le_succ hp)

theorem nextIdx_append_unconsumed {E : Type} :
    ∀ (done : List (EventInstance E)) (r : EventInstance E)
      (rest : List (EventInstance E)), r.consumed = false →
      nextIdx (done ++ r :: rest) done.length = some done.length := by
  intro done
  induction done with
  | nil =>
    intro r rest hc
    simp [nextIdx, hc]
  | cons d done ih =>
    intro r rest hc
    simp only [List.cons_append, List.length_cons, nextIdx, List.append_eq,
      ih r rest hc, Option.map_some']

theorem nextIdx_append_consumed {E : Type} :
    ∀ (done : List (EventInstance E)) (r : EventInstance E)
      (rest : List (EventInstance E)), r.consumed = true →
      nextIdx (done ++ r :: rest) done.length =
        nextIdx (done ++ r :: rest) (done.length + 1) := by
  intro done
  induction done with
  | nil =>
    intro r rest hc
    simp [nextIdx, hc]
  | cons d done ih =>
    intro r rest hc
    simp only [List.cons_append, List.length_cons, nextIdx, List.append_eq,
      ih r rest hc]

theorem runPassFuel_congr_pos {E : Type} (f : E → E × Bool)
    (events : ConsumableEvents E) (pos pos' fuel : Nat)
    (h : nextIdx events pos = nextIdx events pos') :
    runPassFuel f events pos (fuel + 1) = runPassFuel f events pos' (fuel + 1) := by
  simp only [runPassFuel, h]

theorem get_append_length {E : Type} :
    ∀ (done : List (EventInstance E)) (r : EventInstance E)
      (rest : List (EventInstance E)),
      (done ++ r :: rest).get? done.length = some r := by
  intro done
  induction done with
  | nil => intro r rest; rfl
  | cons d done ih => intro r rest; simpa using ih r rest

theorem set_append_length {E : Type} :
    ∀ (done : List (EventInstance E)) (r x : EventInstance E)
      (rest : List (EventInstance E)),
      (done ++ r :: rest).set done.length x = done ++ x :: rest := by
  intro done
  induction done with
  | nil => intro r x rest; rfl
  | cons d done ih => intro r x rest; simp [List.set, ih r x rest]

theorem runPass_bridge {E : Type} (f : E → E × Bool) :
    ∀ (rest done : List (EventInstance E)) (fuel : Nat),
      rest.length ≤ fuel →
      runPassFuel f (done ++ rest) done.length fuel =
        (done ++ (passAuxIdx f rest done.length).1,
          (passAuxIdx f rest done.length).2) := by
  intro rest
  induction rest with
  | nil =>
    intro done fuel _
    have hnone := nextIdx_none_of_ge (done ++ []) done.length (by simp)
    simp only [List.append_nil] at hnone
    cases fuel with
    | zero => simp [runPassFuel, passAuxIdx]
    | succ fu => simp [runPassFuel, hnone, passAuxIdx]
  | cons r rest ih =>
    intro done fuel hf
    cases fuel with
    | zero => simp at hf
    | succ fu =>
      by_cases hc : r.consumed
      · have hskip := nextIdx_append_consumed done r rest hc
        rw [runPassFuel_congr_pos f (done ++ r :: rest) done.length
          (done.length + 1) fu hskip]
        have e1 : done ++ r :: rest = (done ++ [r]) ++ rest := by simp
        have e2 : done.length + 1 = (done ++ [r]).length := by simp
        rw [e1, e2, ih (done ++ [r]) (fu + 1)
          (Nat.le_succ_of_le (Nat.le_of_succ_le_succ hf))]
        simp [passAuxIdx, hc]
      · have hcf : r.consumed = false := Bool.eq_false_iff.mpr hc
        have hfind := nextIdx_append_unconsumed done r rest hcf
        have hget := get_append_length done r rest
        have hset := set_append_length done r
          ⟨(f r.event).1, (f r.event).2⟩ rest
        simp only [runPassFuel, hfind, hget, hset]
        have e1 : done ++ (⟨(f r.event).1, (f r.event).2⟩ : EventInstance E) :: rest =
            (done ++ [(⟨(f r.event).1, (f r.event).2⟩ : EventInstance E)]) ++ rest := by
          simp
        have e2 : done.length + 1 =
            (done ++ [(⟨(f r.event).1, (f r.event).2⟩ : EventInstance E)]).length := by
          simp
        rw [e1, e2, ih _ fu (Nat.le_of_succ_le_succ hf)]
        simp [passAuxIdx, hcf]

theorem readPass_eq {E : Type} (f : E → E × Bool) (l : ConsumableEvents E) :
    readPass f l = passAuxIdx f l 0 := by
  have h := runPass_bridge f l [] l.length le_rfl
  simpa [readPass, runFrom] using h


theorem passAuxIdx_fst_length {E : Type} (f : E → E × Bool) :
    ∀ (l : List (EventInstance E)) (i : Nat),
      (passAuxIdx f l i).1.length = l.length := by
  intro l
  induction l with
  | nil => intro i; rfl
  | cons r rest ih =>
    intro i
    by_cases hc : r.consumed
    · simp [passAuxIdx, hc, ih]
    · have hcf : r.consumed = false := Bool.eq_false_iff.mpr hc
      simp [passAuxIdx, hcf, ih]

theorem passAuxIdx_trace_snd {E : Type} (f : E → E × Bool) :
    ∀ (l : List (EventInstance E)) (i : Nat),
      ((passAuxIdx f l i).2).map Prod.snd =
        (l.filter (fun r => !r.consumed)).map (fun r => r.event) := by
  intro l
  induction l with
  | nil => intro i; rfl
  | cons r rest ih =>
    intro i
    by_cases hc : r.consumed
    · simp [passAuxIdx, hc, List.filter_cons, ih]
    · have hcf : r.consumed = false := Bool.eq_false_iff.mpr hc
      simp [passAuxIdx, hcf, List.filter_cons, ih]

theorem passAuxIdx_trace_length {E : Type} (f : E → E × Bool)
    (l : List (EventInstance E)) (i : Nat) :
    (passAuxIdx f l i).2.length = unconsumedCount l := by
  have h := congrArg List.length (passAuxIdx_trace_snd f l i)
  simpa [unconsumedCount] using h

theorem passAuxIdx_consumed_untouched {E : Type} (f : E → E × Bool) :
    ∀ (l : List (EventInstance E)) (i j : Nat) (r : EventInstance E),
      l.get? j = some r → r.consumed = true →
      (passAuxIdx f l i).1.get? j = some r := by
  intro l
  induction l with
  | nil => intro i j r h _; simp at h
  | cons q rest ih =>
    intro i j r h hc
    by_cases hq : q.consumed
    · cases j with
      | zero =>
        simp only [List.get?] at h
        simp [passAuxIdx, hq, h]
      | succ j' =>
        simp only [List.get?] at h
        simp only [passAuxIdx, hq, if_true]
        simpa using ih (i + 1) j' r h hc
    · have hqf : q.consumed = false := Bool.eq_false_iff.mpr hq
      cases j with
      | zero =>
        simp only [List.get?, Option.some.injEq] at h
        subst h
        exact absurd hc (by simp [hqf])
      | succ j' =>
        simp only [List.get?] at h
        simp only [passAuxIdx, hqf, Bool.false_eq_true, if_false]
        simpa using ih (i + 1) j' r h hc

theorem passAuxIdx_trace_mem {E : Type} (f : E → E × Bool) :
    ∀ (l : List (EventInstance E)) (i j : Nat) (e : E),
      (j, e) ∈ (passAuxIdx f l i).2 →
      i ≤ j ∧ ∃ r, l.get? (j - i) = some r ∧ r.consumed = false ∧ r.event = e := by
  intro l
  induction l with
  | nil => intro i j e h; simp [passAuxIdx] at h
  | cons q rest ih =>
    intro i j e h
    by_cases hq : q.consumed
    · simp only [passAuxIdx, hq, if_true] at h
      obtain ⟨hij, r, hr, hrc, hre⟩ := ih (i + 1) j e h
      refine ⟨Nat.le_of_succ_le hij, r, ?_, hrc, hre⟩
      have hji : j - i = (j - (i + 1)) + 1 := by omega
      rw [hji]
      simpa using hr
    · have hqf : q.consumed = false := Bool.eq_false_iff.mpr hq
      simp only [passAuxIdx, hqf, Bool.false_eq_true, if_false,
        List.mem_cons, Prod.mk.injEq] at h
      rcases h with ⟨rfl, rfl⟩ | h
      · exact ⟨le_rfl, q, by simp, hqf, rfl⟩
      · obtain ⟨hij, r, hr, hrc, hre⟩ := ih (i + 1) j e h
        refine ⟨Nat.le_of_succ_le hij, r, ?_, hrc, hre⟩
        have hji : j - i = (j - (i + 1)) + 1 := by omega
        rw [hji]
        simpa using hr

theorem readValues_eq {E : Type} (l : ConsumableEvents E) :
    readValues l = (l.filter (fun r => !r.consumed)).map (fun r => r.event) := by
  unfold readValues
  rw [readPass_eq]
  exact passAuxIdx_trace_snd _ l 0

theorem applySends_eq {E : Type} :
    ∀ (ops : List (SendOp E)) (l : ConsumableEvents E),
      applySends ops l =
        l ++ (sentPayloads ops).map (fun e => { event := e, consumed := false }) := by
  intro ops
  induction ops with
  | nil => intro l; simp [applySends, sentPayloads]
  | cons op ops ih =>
    intro l
    cases op with
    | one e => simp [applySends, sentPayloads, ih, send]
    | batch es => simp [applySends, sentPayloads, ih, send_batch, extendEvents]

theorem length_eq_counts {E : Type} (l : ConsumableEvents E) :
    l.length = consumedCount l + unconsumedCount l := by
  induction l with
  | nil => rfl
  | cons r rest ih =>
    by_cases hc : r.consumed
    · simp [consumedCount, unconsumedCount, List.filter_cons, hc] at ih ⊢
      omega
    · have hcf : r.consumed = false := Bool.eq_false_iff.mpr hc
      simp [consumedCount, unconsumedCount, List.filter_cons, hcf] at ih ⊢
      omega


theorem get?_append_left_of_some {E : Type} :
    ∀ (l₁ l₂ : ConsumableEvents E) (j : Nat) (r : EventInstance E),
      l₁.get? j = some r → (l₁ ++ l₂).get? j = some r := by
  intro l₁
  induction l₁ with
  | nil => intro l₂ j r h; simp at h
  | cons q rest ih =>
    intro l₂ j r h
    cases j with
    | zero => simpa using h
    | succ j' =>
      simp only [List.get?] at h
      simpa using ih l₂ j' r h

theorem get?_set_self {E : Type} :
    ∀ (l : ConsumableEvents E) (i : Nat) (a q : EventInstance E),
      l.get? i = some q → (l.set i a).get? i = some a := by
  intro l
  induction l with
  | nil => intro i a q h; simp at h
  | cons r rest ih =>
    intro i a q h
    cases i with
    | zero => rfl
    | succ i' =>
      simp only [List.get?] at h
      simp only [List.set, List.get?]
      exact ih i' a q h

theorem get?_set_other {E : Type} :
    ∀ (l : ConsumableEvents E) (i j : Nat) (a : EventInstance E),
      j ≠ i → (l.set i a).get? j = l.get? j := by
  intro l
  induction l with
  | nil => intro i j a _; simp
  | cons r rest ih =>
    intro i j a hij
    cases i with
    | zero =>
      cases j with
      | zero => exact absurd rfl hij
      | succ j' => rfl
    | succ i' =>
      cases j with
      | zero => rfl
      | succ j' =>
        simp only [List.set, List.get?]
        exact ih i' j' a (fun he => hij (by rw [he]))


theorem consumeAt_cons_zero {E : Type} (r : EventInstance E)
    (rest : ConsumableEvents E) :
    consumeAt (r :: rest) 0 = { event := r.event, consumed := true } :: rest :=
  rfl

theorem consumeAt_cons_succ {E : Type} (r : EventInstance E)
    (rest : ConsumableEvents E) (i : Nat) :
    consumeAt (r :: rest) (i + 1) = r :: consumeAt rest i := by
  cases hgi : rest.get? i with
  | none => simp only [consumeAt, List.get?, hgi]
  | some q => simp only [consumeAt, List.get?, hgi, List.set]

theorem consumeAt_get?_self {E : Type} :
    ∀ (l : ConsumableEvents E) (i : Nat) (q : EventInstance E),
      l.get? i = some q →
      (consumeAt l i).get? i = some { event := q.event, consumed := true } := by
  intro l
  induction l with
  | nil => intro i q h; simp at h
  | cons r rest ih =>
    intro i q h
    cases i with
    | zero =>
      simp only [List.get?, Option.some.injEq] at h
      subst h
      rfl
    | succ i' =>
      simp only [List.get?] at h
      rw [consumeAt_cons_succ]
      simpa using ih i' q h

theorem consumeAt_get?_other {E : Type} :
    ∀ (l : ConsumableEvents E) (i j : Nat), j ≠ i →
      (consumeAt l i).get? j = l.get? j := by
  intro l
  induction l with
  | nil => intro i j _; cases hgi : ([] : ConsumableEvents E).get? i <;> simp [consumeAt, hgi]
  | cons r rest ih =>
    intro i j hij
    cases i with
    | zero =>
      cases j with
      | zero => exact absurd rfl hij
      | succ j' => rw [consumeAt_cons_zero]; rfl
    | succ i' =>
      cases j with
      | zero => rw [consumeAt_cons_succ]; rfl
      | succ j' =>
        rw [consumeAt_cons_succ]
        simpa using ih i' j' (fun he => hij (by rw [he]))

theorem consumeAt_idem {E : Type} :
    ∀ (l : ConsumableEvents E) (i : Nat),
      consumeAt (consumeAt l i) i = consumeAt l i := by
  intro l
  induction l with
  | nil => intro i; cases hgi : ([] : ConsumableEvents E).get? i <;> simp [consumeAt, hgi]
  | cons r rest ih =>
    intro i
    cases i with
    | zero => rfl
    | succ i' =>
      rw [consumeAt_cons_succ, consumeAt_cons_succ, ih]

theorem fresh_records_read {E : Type} :
    ∀ (es : List E),
      (((es.map (fun e => ({ event := e, consumed := false } : EventInstance E))).filter
          (fun r => !r.consumed)).map (fun r => r.event)) = es := by
  intro es
  induction es with
  | nil => rfl
  | cons e es ih => simp [List.filter_cons, ih]

theorem runFrom_eq_pass {E : Type} (f : E → E × Bool)
    (events : ConsumableEvents E) (pos : Nat) (h : pos ≤ events.length) :
    runFrom f events pos =
      (events.take pos ++ (passAuxIdx f (events.drop pos) pos).1,
        (passAuxIdx f (events.drop pos) pos).2) := by
  have hlen : (events.take pos).length = pos := by
    simp [List.length_take, Nat.min_eq_left h]
  have hfuel : (events.drop pos).length ≤ events.length - pos := by
    simp [List.length_drop]
  have hb := runPass_bridge f (events.drop pos) (events.take pos)
    (events.length - pos) hfuel
  rw [hlen] at hb
  rw [List.take_append_drop] at hb
  exact hb

/-- C1: each call to the event iterator's `next` from position `pos`,
over the buffer as it stands at that moment, yields the first record at
or after `pos` whose consumed flag is false: the found index is in
range and at or after `pos`, its record is unconsumed, every record
between `pos` and it is consumed (so no reachable unconsumed record is
skipped and no consumed record is yielded), and when `next` finds
nothing every record from `pos` on is consumed. -/
theorem C1_next_yields_first_unconsumed {E : Type}
    (events : ConsumableEvents E) (pos : Nat) :
    (∀ i, nextIdx events pos = some i →
      pos ≤ i ∧ ∃ hi : i < events.length,
        (events.get ⟨i, hi⟩).consumed = false ∧
        ∀ j (hj : j < events.length), pos ≤ j → j < i →
          (events.get ⟨j, hj⟩).consumed = true) ∧
    (nextIdx events pos = none →
      ∀ j (hj : j < events.length), pos ≤ j →
        (events.get ⟨j, hj⟩).consumed = true) := by
  constructor
  · intro i h
    refine ⟨nextIdx_ge events pos i h, nextIdx_lt_length events pos i h,
      nextIdx_unconsumed events pos i h _,
      nextIdx_skipped_consumed events pos i h⟩
  · exact nextIdx_none_all_consumed events pos

/-- Witness for C1 on the concrete buffer `[(5, consumed), (6, unconsumed)]`
at position 0: `next` yields index 1 and the skipped record 0 is consumed. -/
theorem C1_witness :
    nextIdx ([{ event := 5, consumed := true },
      { event := 6, consumed := false }] : ConsumableEvents Nat) 0 = some 1 ∧
    (([{ event := 5, consumed := true },
      { event := 6, consumed := false }] : ConsumableEvents Nat).get
        ⟨0, by decide⟩).consumed = true := by
  have h := (C1_next_yields_first_unconsumed
    ([{ event := 5, consumed := true },
      { event := 6, consumed := false }] : ConsumableEvents Nat) 0).1 1 (by decide)
  obtain ⟨-, hi, -, hskip⟩ := h
  exact ⟨by decide, hskip 0 (by decide) (by decide) (by decide)⟩

/-- C2: the consumed flag only ever goes from false to true.  `send`,
`send_batch` and `send_default` leave every existing record (payload
and flag) in place; a read pass with any loop body leaves a consumed
record entirely untouched and never yields it (no trace entry carries
its index); `consume` on any guard leaves every record's flag true if
it was true (and payloads unchanged); and `clear_consumed` keeps only
unchanged records of the original buffer.  Hence a consumed record is
never resurrected and never read again. -/
theorem C2_consume_once_monotone {E : Type} :
    (∀ (l : ConsumableEvents E) (e : E) (j : Nat) (r : EventInstance E),
      l.get? j = some r → (send l e).get? j = some r) ∧
    (∀ (l : ConsumableEvents E) (es : List E) (j : Nat) (r : EventInstance E),
      l.get? j = some r → (send_batch l es).get? j = some r) ∧
    (∀ [Inhabited E] (l : ConsumableEvents E) (j : Nat) (r : EventInstance E),
      l.get? j = some r → (send_default l).get? j = some r) ∧
    (∀ (f : E → E × Bool) (l : ConsumableEvents E) (j : Nat) (r : EventInstance E),
      l.get? j = some r → r.consumed = true → (readPass f l).1.get? j = some r) ∧
    (∀ (f : E → E × Bool) (l : ConsumableEvents E) (j : Nat)
      (r : EventInstance E) (e : E),
      l.get? j = some r → r.consumed = true → (j, e) ∉ (readPass f l).2) ∧
    (∀ (l : ConsumableEvents E) (i j : Nat) (r : EventInstance E),
      l.get? j = some r → r.consumed = true →
      ∃ r', (consumeAt l i).get? j = some r' ∧ r'.consumed = true ∧
        r'.event = r.event) ∧
    (∀ (l : ConsumableEvents E) (r : EventInstance E),
      r ∈ clear_consumed l → r ∈ l) := by
  refine ⟨?_, ?_, ?_, ?_, ?_, ?_, ?_⟩
  · intro l e j r h
    exact get?_append_left_of_some l _ j r h
  · intro l es j r h
    exact get?_append_left_of_some l _ j r h
  · intro _ l j r h
    exact get?_append_left_of_some l _ j r h
  · intro f l j r h hc
    rw [readPass_eq]
    exact passAuxIdx_consumed_untouched f l 0 j r h hc
  · intro f l j r e h hc hmem
    rw [readPass_eq] at hmem
    obtain ⟨-, r', hr', hrc', -⟩ := passAuxIdx_trace_mem f l 0 j e hmem
    rw [Nat.sub_zero, h] at hr'
    cases hr'
    rw [hc] at hrc'
    exact Bool.true_eq_false.mp hrc'
  · intro l i j r h hc
    by_cases hij : j = i
    · subst hij
      exact ⟨{ event := r.event, consumed := true },
        consumeAt_get?_self l j r h, rfl, rfl⟩
    · refine ⟨r, ?_, hc, rfl⟩
      rw [consumeAt_get?_other l i j hij]
      exact h
  · intro l r h
    exact (List.mem_filter.mp h).1

/-- Witness for C2: a read pass over a buffer containing one consumed
record (payload 7) leaves it untouched. -/
theorem C2_witness :
    (readPass (fun e => (e + 1, false))
      ([{ event := 7, consumed := true }] : ConsumableEvents Nat)).1.get? 0 =
      some { event := 7, consumed := true } := by
  exact (C2_consume_once_monotone (E := Nat)).2.2.2.1 (fun e => (e + 1, false))
    [{ event := 7, consumed := true }] 0 { event := 7, consumed := true } rfl rfl

/-- C3 as stated is false: on a buffer holding a single consumed record,
`clear_consumed` removes one record, but the number of unconsumed records
before the call minus the number after is `0 - 0 = 0 ≠ 1`. -/
theorem C3_counterexample :
    ¬(([{ event := 0, consumed := true }] : ConsumableEvents Nat).length -
        (clear_consumed
          ([{ event := 0, consumed := true }] : ConsumableEvents Nat)).length =
      unconsumedCount ([{ event := 0, consumed := true }] : ConsumableEvents Nat) -
        unconsumedCount (clear_consumed
          ([{ event := 0, consumed := true }] : ConsumableEvents Nat))) := by
  decide

/-- C3 amended: after `clear_consumed()` the buffer contains exactly the
records whose consumed flag was false, in their original relative order
with payloads unchanged (so the observable read values are unchanged),
and the number of records removed equals the number of consumed records
before the call minus the number of consumed records after the call. -/
theorem C3_clear_consumed_partition {E : Type} (l : ConsumableEvents E) :
    clear_consumed l = l.filter (fun r => !r.consumed) ∧
    readValues (clear_consumed l) = readValues l ∧
    l.length - (clear_consumed l).length =
      consumedCount l - consumedCount (clear_consumed l) := by
  refine ⟨rfl, ?_, ?_⟩
  · rw [readValues_eq, readValues_eq, clear_consumed]
    simp [List.filter_filter]
  · have h1 := length_eq_counts l
    have h2 : (clear_consumed l).length = unconsumedCount l := rfl
    have h3 : consumedCount (clear_consumed l) = 0 := by
      simp [consumedCount, clear_consumed, List.filter_filter]
    omega


/-- C4: under the persistent lifecycle (hook = `clear_consumed`, then
send `0..10`, then one read pass consuming odd values and halving even
values in place), the read after cycle one yields `[0,1,2,3,4]` and the
read after cycle two yields `[0,1,2,0,1,2,3,4]`: the halved-but-unconsumed
records survive the hook with their mutated values and are processed
again before the second cycle's fresh batch. -/
theorem C4_persistent_two_cycles :
    readValues (persistentCycle []) = [0, 1, 2, 3, 4] ∧
    readValues (persistentCycle (persistentCycle [])) =
      [0, 1, 2, 0, 1, 2, 3, 4] := by
  exact ⟨by decide, by decide⟩

/-- C5: appending any mix of `send` and `send_batch` actions to an empty
buffer and then running a read pass that never consumes (but may mutate
payloads via `g`) yields exactly the appended payloads, each once, in
append order. -/
theorem C5_append_order_preserved {E : Type} (g : E → E)
    (ops : List (SendOp E)) :
    ((readPass (fun e => (g e, false)) (applySends ops [])).2).map Prod.snd =
      sentPayloads ops := by
  rw [readPass_eq, passAuxIdx_trace_snd, applySends_eq]
  simpa using fresh_records_read (sentPayloads ops)

/-- C6: `send_batch` on a payload sequence leaves the buffer in exactly
the same state as calling `send` once per payload in the same order, for
every starting buffer. -/
theorem C6_send_batch_eq_sends {E : Type} (l : ConsumableEvents E)
    (es : List E) :
    send_batch l es = es.foldl send l := by
  induction es generalizing l with
  | nil => simp [send_batch, extendEvents]
  | cons e es ih =>
    simp only [List.foldl_cons]
    rw [← ih (send l e)]
    simp [send_batch, extendEvents, send]

/-- C7: consuming twice through the guard bound to record `i` is a
no-op: after the first `consume` the record's flag is true (payload
unchanged), the second `consume` leaves the whole buffer exactly as
after the first, and no other record is touched. -/
theorem C7_double_consume_noop {E : Type} (l : ConsumableEvents E) (i : Nat)
    (h : i < l.length) :
    (consumeAt l i).get? i =
      some { event := (l.get ⟨i, h⟩).event, consumed := true } ∧
    consumeAt (consumeAt l i) i = consumeAt l i ∧
    ∀ j, j ≠ i → (consumeAt l i).get? j = l.get? j := by
  refine ⟨consumeAt_get?_self l i _ (List.get?_eq_get h), consumeAt_idem l i,
    fun j hj => consumeAt_get?_other l i j hj⟩

/-- Witness for C7 on the one-record buffer `[(5, unconsumed)]`. -/
theorem C7_witness :
    (consumeAt ([{ event := 5, consumed := false }] : ConsumableEvents Nat)
        0).get? 0 = some { event := 5, consumed := true } ∧
    consumeAt (consumeAt
        ([{ event := 5, consumed := false }] : ConsumableEvents Nat) 0) 0 =
      consumeAt ([{ event := 5, consumed := false }] : ConsumableEvents Nat) 0 := by
  have h := C7_double_consume_noop
    ([{ event := 5, consumed := false }] : ConsumableEvents Nat) 0 (by decide)
  exact ⟨h.1, h.2.1⟩

/-- C8: `clear` empties the buffer regardless of its contents, so any
subsequent read pass (with any loop body) yields no guards. -/
theorem C8_clear_then_read_empty {E : Type} (l : ConsumableEvents E)
    (f : E → E × Bool) :
    clear l = [] ∧ (readPass f (clear l)).2 = [] :=
  ⟨rfl, rfl⟩

/-- C9: `clear` and `clear_consumed` are idempotent; in particular after
one `clear_consumed` every remaining record is unconsumed, so a second
`clear_consumed` removes nothing. -/
theorem C9_clear_ops_idempotent {E : Type} (l : ConsumableEvents E) :
    clear (clear l) = clear l ∧
    clear_consumed (clear_consumed l) = clear_consumed l ∧
    (clear_consumed l).all (fun r => !r.consumed) = true := by
  refine ⟨rfl, ?_, ?_⟩
  · simp [clear_consumed, List.filter_filter]
  · rw [List.all_eq_true]
    intro r hr
    exact (List.mem_filter.mp hr).2

/-- C10: `size_hint` returns lower bound `0` and upper bound the number
of records not yet passed (consumed ones included), and the number of
guards the iterator still yields (from any position, with any loop
body) lies within these bounds. -/
theorem C10_size_hint_bounds {E : Type} (f : E → E × Bool)
    (events : ConsumableEvents E) (pos : Nat) (h : pos ≤ events.length) :
    (size_hint events pos).1 = 0 ∧
    (size_hint events pos).2 = some ((events.drop pos).length) ∧
    (runFrom f events pos).2.length ≤ (events.drop pos).length := by
  refine ⟨rfl, ?_, ?_⟩
  · simp [size_hint, List.length_drop]
  · rw [runFrom_eq_pass f events pos h]
    dsimp only
    rw [passAuxIdx_trace_length]
    simpa [unconsumedCount] using
      List.length_filter_le (fun r => !r.consumed) (events.drop pos)

/-- Witness for C10 on `[(1, unconsumed), (2, consumed)]` at position 1
with a consuming loop body. -/
theorem C10_witness :
    (size_hint ([{ event := 1, consumed := false },
      { event := 2, consumed := true }] : ConsumableEvents Nat) 1).2 = some 1 ∧
    (runFrom (fun n => (n, true))
      ([{ event := 1, consumed := false },
        { event := 2, consumed := true }] : ConsumableEvents Nat) 1).2.length ≤ 1 := by
  have h := C10_size_hint_bounds (fun n => (n, true))
    ([{ event := 1, consumed := false },
      { event := 2, consumed := true }] : ConsumableEvents Nat) 1 (by decide)
  exact ⟨h.2.1, h.2.2⟩

end BevyConsumableEvent
